import Mathlib

/-!
Shallow embedding of the optimization core of the `spherical_uniform_sampling`
(a.k.a. `qspace_direction`) package: the metric library (`sampling/loss.py`),
the polarity-flip MILP model (`sampling/flip.py`), the incremental-ordering
models (`sampling/packing_density.py`), the closed-form covering-radius upper
bound (`sampling/cnlo.py` / `sampling/loss.py`) and the input validation of
`scripts/direction_subsampling.py`.  Machine floats are embedded as real
numbers (ℝ) or rationals (ℚ); Python dynamic typing is embedded as explicit
sum types; fallible code returns `Option`/`Except`.
-/

namespace Qspace

open Real

/-- A point, `np.ndarray` of shape (3,). -/
abbrev P3 : Type := ℝ × ℝ × ℝ

/-- Row-by-row entry of `points @ points.T`: the inner product of two points. -/
def dot3 (p q : P3) : ℝ := p.1 * q.1 + p.2.1 * q.2.1 + p.2.2 * q.2.2

/-- Negation of a point, `-points[i]` in `flip.py`. -/
def vneg (p : P3) : P3 := (-p.1, -p.2.1, -p.2.2)

/-- `np.clip(x, -1, 1)`, i.e. `np.minimum(np.maximum(x, -1), 1)`. -/
def clip (x : ℝ) : ℝ := min (max x (-1)) 1

/-- The strict upper-triangle entries of the symmetric matrix
`f(vects @ vects.T)`: for each point, the transformed inner product with every
later point.  This is the multiset of entries of `np.triu(M, 1)` that are not
zeroed out. -/
def pairVals (f : ℝ → ℝ) : List P3 → List ℝ
  | [] => []
  | p :: rest => rest.map (fun q => f (dot3 p q)) ++ pairVals f rest

/-- Entries of `np.triu(innerProductAll, 1)` above the diagonal where
`innerProductAll = np.abs(vects @ vects.T)` if antipodal else
`vects @ vects.T` (`loss.py`, `covering_radius`). -/
def pairCos (l : List P3) (antipodal : Bool) : List ℝ :=
  pairVals (fun c => if antipodal then |c| else c) l

/-- `np.max(np.triu(M, 1))` for a nonempty matrix: `np.triu(·, 1)` zeroes the
diagonal and the lower triangle, so those zeros participate in the maximum
together with the strict upper-triangle entries. -/
def maxTriu (l : List ℝ) : ℝ := l.foldl max 0

/-- The value `np.arccos(np.clip(np.max(np.triu(innerProductAll, 1)), -1, 1))`
computed by `covering_radius` in `loss.py` on a nonempty input. -/
noncomputable def crVal (l : List P3) (antipodal : Bool) : ℝ :=
  arccos (clip (maxTriu (pairCos l antipodal)))

/-- `covering_radius(vects, antipodal)` from `loss.py`.  On an empty input
`np.max` of an empty array raises `ValueError`, embedded as `none`. -/
noncomputable def covering_radius : List P3 → Bool → Option ℝ
  | [], _ => none
  | l, antipodal => some (crVal l antipodal)

/-- `packing_density_loss(vects, start)` from `loss.py`:
`cons = np.concatenate([start, vects]) if len(start) > 0 else vects`, then the
sum over `k in range(1, len(vects) + 1)` of
`(1 - np.cos(covering_radius(cons[:k]))) / 2 * (k + len(start))`
(`covering_radius` with its default `antipodal=True`; `cons[:k]` is nonempty
for every such `k`, so `covering_radius` never raises here). -/
noncomputable def packing_density_loss (vects start : List P3) : ℝ :=
  let cons := if 0 < start.length then start ++ vects else vects
  ((List.range vects.length).map (fun k =>
    (1 - cos (crVal (cons.take (k + 1)) true)) / 2 * ((k + 1 + start.length : ℕ) : ℝ))).sum

/-- The quantity described by the spec for `packingDensityLoss`, written from
the spec's words for comparison with the source function: the k-th prefix is
all existing points followed by the first k new points, and its size is
`|existing| + k`. -/
noncomputable def packingDensityLoss_spec (vects start : List P3) : ℝ :=
  ((List.range vects.length).map (fun k =>
    (1 - cos (crVal (start ++ vects.take (k + 1)) true)) / 2 * ((k + 1 + start.length : ℕ) : ℝ))).sum

/-- `epsilon = 1e-9` in `electrostatic_energy` (`loss.py`). -/
noncomputable def epsE : ℝ := 1 / 1000000000

/-- One summand of `(1.0 / (((vects[i+1:] - vects[i]) ** order).sum(1) + epsilon))`:
the coordinates of the difference are each raised to `order`, summed, and
`epsilon` is added before taking the reciprocal. -/
noncomputable def eTermDiff (order : ℕ) (p q : P3) : ℝ :=
  1 / ((q.1 - p.1) ^ order + (q.2.1 - p.2.1) ^ order + (q.2.2 - p.2.2) ^ order + epsE)

/-- One summand of the antipodal branch
`(1.0 / (((vects[i+1:] + vects[i]) ** order).sum(1) + epsilon))`. -/
noncomputable def eTermSum (order : ℕ) (p q : P3) : ℝ :=
  1 / ((q.1 + p.1) ^ order + (q.2.1 + p.2.1) ^ order + (q.2.2 + p.2.2) ^ order + epsE)

/-- Contribution of the (earlier point `p`, later point `q`) pair to the energy
accumulated by the loop body of `electrostatic_energy`. -/
noncomputable def pairEnergy (order : ℕ) (antipodal : Bool) (p q : P3) : ℝ :=
  eTermDiff order p q + if antipodal then eTermSum order p q else 0

/-- `electrostatic_energy(vects, order, antipodal)` from `loss.py`:
`for i in range(N - 1)` accumulate the terms pairing `vects[i]` with every
point of `vects[i+1:]`. -/
noncomputable def electrostatic_energy : List P3 → ℕ → Bool → ℝ
  | [], _, _ => 0
  | p :: rest, order, antipodal =>
      (rest.map (pairEnergy order antipodal p)).sum + electrostatic_energy rest order antipodal

/-- The quantity the claim describes for `electrostaticEnergy`, written from
the spec's words for comparison with the source function: the sum over
unordered index pairs i < j of `1 / (‖pᵢ - pⱼ‖² + ε) ^ order`, plus, when
antipodal, `1 / (‖pᵢ + pⱼ‖² + ε) ^ order`. -/
noncomputable def electrostaticEnergy_spec (l : List P3) (order : ℕ) (antipodal : Bool) : ℝ :=
  ∑ i ∈ Finset.range l.length, ∑ j ∈ Finset.range l.length,
    if i < j then
      (let p := l.getD i (0, 0, 0); let q := l.getD j (0, 0, 0);
        1 / ((q.1 - p.1) ^ 2 + (q.2.1 - p.2.1) ^ 2 + (q.2.2 - p.2.2) ^ 2 + epsE) ^ order
        + if antipodal then
            1 / ((q.1 + p.1) ^ 2 + (q.2.1 + p.2.1) ^ 2 + (q.2.2 + p.2.2) ^ 2 + epsE) ^ order
          else 0)
    else 0

/-- A Python number as received by `covering_radius_upper_bound`: either a
built-in `int`, or a numpy integer scalar (also the per-element view of a
numpy integer array), which is not an instance of `int`. -/
inductive PyNum : Type
  | int : ℤ → PyNum
  | npInt : ℤ → PyNum

/-- The numeric value. -/
def PyNum.toInt : PyNum → ℤ
  | .int n => n
  | .npInt n => n

/-- `isinstance(num, int)`: true only for the built-in `int`. -/
def PyNum.isPyInt : PyNum → Bool
  | .int _ => true
  | .npInt _ => false

/-- The closed-form branch of `covering_radius_upper_bound` (`loss.py` /
`cnlo.py`):
`upperBoundEuc = np.sqrt(4 - (1 / np.sin(np.pi * num / (6 * (num - 2)))) ** 2)`
then `np.arccos((2 - upperBoundEuc ** 2) / 2)`. -/
noncomputable def crubFormula (n : ℝ) : ℝ :=
  arccos ((2 - (Real.sqrt (4 - (1 / Real.sin (π * n / (6 * (n - 2)))) ^ 2)) ^ 2) / 2)

/-- `covering_radius_upper_bound(num)` from `loss.py` / `cnlo.py`:
`if isinstance(num, int) and num < 3: return np.pi / 2`, else the closed-form
spherical-code bound. -/
noncomputable def covering_radius_upper_bound (num : PyNum) : ℝ :=
  if num.isPyInt = true ∧ num.toInt < 3 then π / 2 else crubFormula (num.toInt : ℝ)

/-- The four shared-linearization inequalities of `dirflip` (`flip.py` lines
26-37): `x ≤ hᵢ + hⱼ`, `x ≥ hᵢ - hⱼ`, `x ≥ hⱼ - hᵢ`, `x ≤ 2 - hᵢ - hⱼ`. -/
def flipLinFeasible (hi hj x : ℝ) : Prop :=
  x ≤ hi + hj ∧ x ≥ hi - hj ∧ x ≥ hj - hi ∧ x ≤ 2 - hi - hj

/-- The linearized pair term `(1 - x) * d + x * (π - d)` of `dirflip`
(`flip.py` line 40). -/
noncomputable def flipPairTerm (x d : ℝ) : ℝ := (1 - x) * d + x * (π - d)

/-- The angle between a pair after applying the flip decisions: unchanged when
both points are flipped or neither is, `π - d` when exactly one is. -/
noncomputable def postFlipAngle (hi hj d : ℝ) : ℝ := if hi = hj then d else π - d

/-- The output construction of `dirflip` (`flip.py` lines 49-54): point i is
negated when `h[i] = 1`, kept when `h[i] = 0`. -/
def applyFlip : List Bool → List P3 → List P3
  | b :: bs, p :: ps => (if b then vneg p else p) :: applyFlip bs ps
  | _, _ => []

/-- One entry of `dis = np.arccos(np.clip(points @ points.T, -1, 1))`
(`flip.py` line 15). -/
noncomputable def arcDis (c : ℝ) : ℝ := arccos (clip c)

/-- The linearized angles of all pairs i < j in the `dirflip` model, at a
feasible point where each `x[i, j]` takes its forced value
`|h[i] - h[j]|` (0 when the two flip bits agree, 1 otherwise). -/
noncomputable def pairFlipAngles : List (P3 × Bool) → List ℝ
  | [] => []
  | (p, b) :: rest =>
      rest.map (fun qc => flipPairTerm (if b = qc.2 then 0 else 1) (arcDis (dot3 p qc.1)))
        ++ pairFlipAngles rest

/-- The optimal value `theta` of the `dirflip` model for a fixed flip
assignment: the minimum linearized pair angle (the model maximizes a variable
lower-bounded by every pair term; with fewer than two points the model is
unbounded, embedded by the neutral initial value π). -/
noncomputable def dirflipObjective (points : List P3) (eps : List Bool) : ℝ :=
  (pairFlipAngles (points.zip eps)).foldl min π

/-- `pos2bval` of `incremental_sorting_multi_shell_incre`
(`packing_density.py` lines 386-390): position i carries `incre_bval[i]` for
i < N and `fixed_bval[i - N]` for N ≤ i < N + K.  B-values are embedded as
rationals. -/
def pos2bval (increBval fixedBval : List ℚ) (i : ℕ) : ℚ :=
  if i < increBval.length then increBval.getD i 0 else fixedBval.getD (i - increBval.length) 0

/-- The filter on candidate-candidate pairs contributing to shell `s`'s
prefix-quality constraints (`packing_density.py` line 458):
`pos2bval[x[0]] == pos2bval[x[1]] == s` — the chained comparison tests the
pair's b-values against the shell index `s` itself. -/
def candCandContrib (increBval fixedBval : List ℚ) (s i j : ℕ) : Bool :=
  decide (pos2bval increBval fixedBval i = pos2bval increBval fixedBval j)
    && decide (pos2bval increBval fixedBval j = (s : ℚ))

/-- The filter on candidate-fixed pairs contributing to shell `s`'s
prefix-quality constraints (`packing_density.py` line 482):
`pos2bval[x[0]] == pos2bval[x[1]] == bvalList[s]`. -/
def candFixedContrib (increBval fixedBval bvalList : List ℚ) (s i j : ℕ) : Bool :=
  decide (pos2bval increBval fixedBval i = pos2bval increBval fixedBval j)
    && decide (pos2bval increBval fixedBval j = bvalList.getD s 0)

/-- Modelled from the spec: the label-matching filter the spec describes —
an index pair contributes to shell `s`'s series exactly when both points
carry shell `s`'s b-value `bvalList[s]`. -/
def shellContribSpec (increBval fixedBval bvalList : List ℚ) (s i j : ℕ) : Bool :=
  decide (pos2bval increBval fixedBval i = bvalList.getD s 0)
    && decide (pos2bval increBval fixedBval j = bvalList.getD s 0)

/-- The dynamic type of the `time_limit` argument of
`incremental_sorting_single_shell` (`packing_density.py`): a Python float, a
Python int (the declared default is the int literal `600`), or a list of
per-split limits. -/
inductive PyTimeLimit : Type
  | float : ℚ → PyTimeLimit
  | int : ℤ → PyTimeLimit
  | list : List ℚ → PyTimeLimit

/-- A raised Python exception. -/
inductive PyErr : Type
  | typeError : PyErr
  | assertionError : PyErr

/-- `if isinstance(time_limit, float): time_limit = [time_limit for _ in
range(len(points_per_split))]` (`packing_density.py` line 291): only a float
is expanded to a per-split list; an int is left untouched. -/
def expandTimeLimit (nsplits : ℕ) : PyTimeLimit → PyTimeLimit
  | .float t => .list (List.replicate nsplits t)
  | tl => tl

/-- `zip(points_per_split, time_limit)` (`packing_density.py` line 299):
requires an iterable second argument, otherwise Python raises `TypeError`
before the loop body (and hence before any sorting) runs. -/
def zipSplits (splits : List ℕ) : PyTimeLimit → Except PyErr (List (ℕ × ℚ))
  | .list ts => .ok (splits.zip ts)
  | _ => .error .typeError

/-- The pre-sorting control flow of `incremental_sorting_single_shell`
(`packing_density.py` lines 291-299): expand a float time limit to a
per-split list, then zip the splits with it; the result is the list of
(batch size, time limit) pairs the sorting loop iterates over. -/
def incrementalSortingSplits (splits : List ℕ) (timeLimit : PyTimeLimit) :
    Except PyErr (List (ℕ × ℚ)) :=
  zipSplits splits (expandTimeLimit splits.length timeLimit)

/-- Which solver entry point `main` of `scripts/direction_subsampling.py`
dispatches to. -/
inductive SubsampleAction : Type
  | singleSingle : SubsampleAction
  | multiSingle : SubsampleAction
  | multiMulti : SubsampleAction

/-- The input-validation and dispatch logic of `main` in
`scripts/direction_subsampling.py`: `if lb:` guards
`assert len(lb) == len(numbers) + 1`; then with one input point group the call
goes to a single-set solver, while with several input point groups the line
`len(inputBvec) == len(numbers)` is a bare expression statement whose boolean
result is discarded, and the multi-set solver is called unconditionally. -/
def directionSubsamplingMain (numGroups : ℕ) (numbers : List ℤ) (lb : Option (List ℚ)) :
    Except PyErr SubsampleAction :=
  match lb with
  | some l =>
      if l ≠ [] ∧ l.length ≠ numbers.length + 1 then .error .assertionError
      else dispatch
  | none => dispatch
where
  dispatch : Except PyErr SubsampleAction :=
    if numGroups = 1 then
      if numbers.length = 1 then .ok .singleSingle else .ok .multiSingle
    else
      let _discardedCheck := decide (numGroups = numbers.length)
      .ok .multiMulti

/-- The unit point (1, 0, 0), a concrete test input. -/
def pE1 : P3 := (1, 0, 0)

/-- The unit point (0, 1, 0), a concrete test input. -/
def pE2 : P3 := (0, 1, 0)

/-- The unit point (3/5, 4/5, 0), a concrete test input. -/
noncomputable def pMix : P3 := (3 / 5, 4 / 5, 0)

/-- The unit point (-3/5, 4/5, 0), a concrete test input. -/
noncomputable def pMixNeg : P3 := (-3 / 5, 4 / 5, 0)

/-- Claim C10: `incremental_sorting_single_shell` accepts its time limit only
as a float or as a list of per-split limits; for every Python `int` time
limit — including the declared default `600` — the per-split expansion is
skipped (the `isinstance` check tests for `float` only) and zipping the splits
with the time limit raises `TypeError` before any sorting is performed. -/
theorem time_limit_int_type_error :
    (∀ (splits : List ℕ) (n : ℤ),
      incrementalSortingSplits splits (PyTimeLimit.int n) = .error PyErr.typeError) ∧
    (∀ (splits : List ℕ) (t : ℚ),
      incrementalSortingSplits splits (PyTimeLimit.float t) =
        .ok (splits.zip (List.replicate splits.length t))) ∧
    (∀ (splits : List ℕ) (ts : List ℚ),
      incrementalSortingSplits splits (PyTimeLimit.list ts) = .ok (splits.zip ts)) := by
  refine ⟨fun _ _ => rfl, fun _ _ => rfl, fun _ _ => rfl⟩

/-- Claim C8: contrary to the claim, a mismatch between the number of supplied
point groups and the number of per-shell counts does not raise: the intended
assertion on line 103 of `scripts/direction_subsampling.py` is a bare
discarded expression, so 2 point groups with 3 per-shell numbers proceed
straight to the multi-set solver; only the lower-bound length check actually
asserts. -/
theorem subsampling_mismatch_no_error :
    directionSubsamplingMain 2 [10, 10, 10] none = .ok SubsampleAction.multiMulti ∧
    directionSubsamplingMain 2 [10, 10] (some [1 / 2]) = .error PyErr.assertionError := by
  exact ⟨rfl, rfl⟩

/-- Claim C5: contrary to the claim, the candidate-candidate filter of the
multi-shell incremental-ordering model (line 458 of `packing_density.py`)
compares the pair's b-values with the shell index `s` itself rather than with
`bvalList[s]`: with one shell of b-value 1000, the candidate pair (0, 1) whose
points both carry b-value 1000 is excluded from the shell's constraints, while
the candidate-fixed filter (line 482) correctly matches on `bvalList[s]`. -/
theorem multi_shell_filter_bug :
    candCandContrib [1000, 1000] [1000] 0 0 1 = false ∧
    shellContribSpec [1000, 1000] [1000] [1000] 0 0 1 = true ∧
    candFixedContrib [1000, 1000] [1000] [1000] 0 0 2 = true := by
  decide

/-- Claim C3 (counterexample): `coveringRadiusUpperBound` does not return π/2
for every n < 3 when n is a numpy integer: `isinstance(num, int)` is false for
numpy integers, so the closed-form formula is evaluated; at n = 1 it yields
`arccos(1) = 0`, not π/2. -/
theorem covering_radius_upper_bound_npint_cex :
    covering_radius_upper_bound (PyNum.npInt 1) ≠ π / 2 := by
  have hval : covering_radius_upper_bound (PyNum.npInt 1) = 0 := by
    unfold covering_radius_upper_bound
    rw [if_neg (by simp [PyNum.isPyInt])]
    unfold crubFormula
    have harg : π * ((PyNum.npInt 1).toInt : ℝ) / (6 * (((PyNum.npInt 1).toInt : ℝ) - 2))
        = -(π / 6) := by
      show π * ((1 : ℤ) : ℝ) / (6 * (((1 : ℤ) : ℝ) - 2)) = -(π / 6)
      push_cast
      ring
    rw [harg, Real.sin_neg, Real.sin_pi_div_six]
    norm_num
  rw [hval]
  exact fun hc => absurd hc.symm (ne_of_gt (by positivity))

/-- Claim C3 (amended): `coveringRadiusUpperBound(n)` returns π/2 for n < 3
when n is a built-in Python `int` (numpy integers and arrays skip the guard
and evaluate the closed-form formula instead). -/
theorem covering_radius_upper_bound_pyint_small (n : ℤ) (h : n < 3) :
    covering_radius_upper_bound (PyNum.int n) = π / 2 := by
  unfold covering_radius_upper_bound
  exact if_pos ⟨rfl, h⟩

/-- Witness for `covering_radius_upper_bound_pyint_small` at n = 2. -/
theorem covering_radius_upper_bound_pyint_small_witness :
    (2 : ℤ) < 3 ∧ covering_radius_upper_bound (PyNum.int 2) = π / 2 :=
  ⟨by decide, covering_radius_upper_bound_pyint_small 2 (by decide)⟩

/-- Claim C6: for binary hᵢ, hⱼ and x ∈ [0, 1], the four shared-linearization
inequalities hold exactly when x = |hᵢ - hⱼ| (the XOR of the two flip
decisions), and then the pair term (1 - x)·d + x·(π - d) equals the post-flip
angle: d when the bits agree, π - d when they differ. -/
theorem flip_linearization_correct (hi hj x d : ℝ)
    (hhi : hi = 0 ∨ hi = 1) (hhj : hj = 0 ∨ hj = 1) (hx0 : 0 ≤ x) (hx1 : x ≤ 1) :
    (flipLinFeasible hi hj x ↔ x = |hi - hj|) ∧
    (flipLinFeasible hi hj x → flipPairTerm x d = postFlipAngle hi hj d) := by
  unfold flipLinFeasible flipPairTerm postFlipAngle
  rcases hhi with h1 | h1 <;> rcases hhj with h2 | h2 <;> subst h1 <;> subst h2 <;>
    constructor
  · rw [show |(0 : ℝ) - 0| = 0 by norm_num]
    exact ⟨fun ⟨a, _, _, _⟩ => by linarith, fun hx => by norm_num [hx]⟩
  · rintro ⟨a, -, -, -⟩
    rw [if_pos rfl, show x = 0 by linarith]
    ring
  · rw [show |(0 : ℝ) - 1| = 1 by norm_num]
    exact ⟨fun ⟨_, _, c, _⟩ => by linarith, fun hx => by norm_num [hx]⟩
  · rintro ⟨-, -, c, -⟩
    rw [if_neg (by norm_num), show x = 1 by linarith]
    ring
  · rw [show |(1 : ℝ) - 0| = 1 by norm_num]
    exact ⟨fun ⟨_, b, _, _⟩ => by linarith, fun hx => by norm_num [hx]⟩
  · rintro ⟨-, b, -, -⟩
    rw [if_neg (by norm_num), show x = 1 by linarith]
    ring
  · rw [show |(1 : ℝ) - 1| = 0 by norm_num]
    exact ⟨fun ⟨_, _, _, e⟩ => by linarith, fun hx => by norm_num [hx]⟩
  · rintro ⟨-, -, -, e⟩
    rw [if_pos rfl, show x = 0 by linarith]
    ring

/-- Witness for `flip_linearization_correct` at hᵢ = 1, hⱼ = 0, x = 1, d = π. -/
theorem flip_linearization_correct_witness :
    (((1 : ℝ) = 0 ∨ (1 : ℝ) = 1) ∧ ((0 : ℝ) = 0 ∨ (0 : ℝ) = 1) ∧
      (0 : ℝ) ≤ 1 ∧ (1 : ℝ) ≤ 1) ∧
    (flipLinFeasible 1 0 1 ↔ (1 : ℝ) = |1 - 0|) ∧
    (flipLinFeasible 1 0 1 → flipPairTerm 1 π = postFlipAngle 1 0 π) :=
  ⟨⟨Or.inr rfl, Or.inl rfl, by norm_num, le_refl 1⟩,
    flip_linearization_correct 1 0 1 π (Or.inr rfl) (Or.inl rfl) (by norm_num) (le_refl 1)⟩

lemma le_foldl_max_init : ∀ (L : List ℝ) (a : ℝ), a ≤ L.foldl max a := by
  intro L
  induction L with
  | nil => exact fun a => le_refl a
  | cons x L ih => exact fun a => le_trans (le_max_left a x) (ih (max a x))

lemma le_foldl_max_mem : ∀ (L : List ℝ) (a x : ℝ), x ∈ L → x ≤ L.foldl max a := by
  intro L
  induction L with
  | nil => intro a x hx; exact absurd hx (List.not_mem_nil x)
  | cons y L ih =>
      intro a x hx
      rw [List.foldl_cons]
      rcases List.mem_cons.mp hx with h | h
      · subst h
        exact le_trans (le_max_right a x) (le_foldl_max_init L (max a x))
      · exact ih (max a y) x h

lemma foldl_max_le : ∀ (L : List ℝ) (a b : ℝ), a ≤ b → (∀ x ∈ L, x ≤ b) → L.foldl max a ≤ b := by
  intro L
  induction L with
  | nil => exact fun a b h _ => h
  | cons y L ih =>
      intro a b h hmem
      exact ih (max a y) b (max_le h (hmem y (List.mem_cons_self y L)))
        (fun x hx => hmem x (List.mem_cons_of_mem y hx))

lemma pairVals_mem_append (f : ℝ → ℝ) (l₁ l₂ : List P3) :
    ∀ x ∈ pairVals f l₁, x ∈ pairVals f (l₁ ++ l₂) := by
  induction l₁ with
  | nil => intro x hx; exact absurd hx (by simp [pairVals])
  | cons p rest ih =>
      intro x hx
      rw [List.cons_append]
      unfold pairVals at hx ⊢
      rcases List.mem_append.mp hx with h | h
      · rcases List.mem_map.mp h with ⟨q, hq, hfq⟩
        exact List.mem_append_left _ (List.mem_map.mpr ⟨q, List.mem_append_left _ hq, hfq⟩)
      · exact List.mem_append_right _ (ih x h)

lemma maxTriu_pairVals_le_append (f : ℝ → ℝ) (l₁ l₂ : List P3) :
    maxTriu (pairVals f l₁) ≤ maxTriu (pairVals f (l₁ ++ l₂)) :=
  foldl_max_le _ 0 _ (le_foldl_max_init _ 0)
    (fun x hx => le_foldl_max_mem _ 0 x (pairVals_mem_append f l₁ l₂ x hx))

lemma clip_mono {x y : ℝ} (h : x ≤ y) : clip x ≤ clip y :=
  min_le_min (max_le_max h (le_refl _)) (le_refl _)

lemma arccos_anti {x y : ℝ} (h : x ≤ y) : arccos y ≤ arccos x := by
  rw [Real.arccos_eq_pi_div_two_sub_arcsin, Real.arccos_eq_pi_div_two_sub_arcsin]
  have := Real.monotone_arcsin h
  linarith

lemma maxTriu_nonneg (L : List ℝ) : 0 ≤ maxTriu L := le_foldl_max_init L 0

lemma clip_nonneg {x : ℝ} (h : 0 ≤ x) : 0 ≤ clip x := by
  unfold clip
  rcases le_total x 1 with h1 | h1
  · rw [max_eq_left (le_trans (by norm_num) h), min_eq_left h1]; exact h
  · rw [max_eq_left (le_trans (by norm_num) h), min_eq_right h1]; norm_num

lemma crVal_singleton (p : P3) (a : Bool) : crVal [p] a = π / 2 := by
  norm_num [crVal, pairCos, pairVals, maxTriu, clip]

/-- Claim C9 (counterexample): on the empty point set `covering_radius` does
not return π/2: `np.max` of an empty array raises `ValueError`. -/
theorem covering_radius_empty_cex :
    covering_radius [] true ≠ some (π / 2) ∧ covering_radius [] true = none := by
  exact ⟨by simp [covering_radius], rfl⟩

/-- Claim C9 (amended): `coveringRadius` returns π/2 for a single point, but
raises on the empty set; for every nonempty point set the returned value lies
in [0, π/2] when antipodal and in [0, π] otherwise. -/
theorem covering_radius_small_sets_range (l : List P3) (a : Bool) (hne : l ≠ []) :
    (l.length = 1 → covering_radius l a = some (π / 2)) ∧
    ∃ r, covering_radius l a = some r ∧ 0 ≤ r ∧ r ≤ (if a then π / 2 else π) := by
  obtain ⟨p, rest, rfl⟩ := List.exists_cons_of_ne_nil hne
  constructor
  · intro hlen
    have hrest : rest = [] := by
      simpa using hlen
    rw [hrest]
    show some (crVal [p] a) = some (π / 2)
    rw [crVal_singleton]
  · refine ⟨crVal (p :: rest) a, rfl, Real.arccos_nonneg _, ?_⟩
    cases a with
    | false => exact le_trans (Real.arccos_le_pi _) (by norm_num)
    | true =>
        show arccos (clip (maxTriu (pairCos (p :: rest) true))) ≤ π / 2
        exact Real.arccos_le_pi_div_two.mpr (clip_nonneg (maxTriu_nonneg _))

/-- Witness for `covering_radius_small_sets_range` on the singleton `[pE1]`. -/
theorem covering_radius_small_sets_range_witness :
    ([((1 : ℝ), (0 : ℝ), (0 : ℝ))] ≠ ([] : List P3)) ∧
    (([((1 : ℝ), (0 : ℝ), (0 : ℝ))] : List P3).length = 1 →
      covering_radius [((1 : ℝ), (0 : ℝ), (0 : ℝ))] true = some (π / 2)) ∧
    ∃ r, covering_radius [((1 : ℝ), (0 : ℝ), (0 : ℝ))] true = some r ∧ 0 ≤ r ∧
      r ≤ (if true then π / 2 else π) :=
  ⟨by simp, (covering_radius_small_sets_range _ true (by simp)).1,
    (covering_radius_small_sets_range _ true (by simp)).2⟩

/-- Claim C1 (amended): the covering radius of the length-k prefix is
non-increasing (not non-decreasing) as k grows — for every point sequence and
all j ≤ k, the covering radius of the first k points is at most that of the
first j points; matching the model constraints `cos_theta[k] <= cos_theta[k+1]`
which force the worst-case prefix cosine upward. -/
theorem covering_radius_take_antitone (l : List P3) (a : Bool) (j k : ℕ) (h : j ≤ k) :
    crVal (l.take k) a ≤ crVal (l.take j) a := by
  unfold crVal
  apply arccos_anti
  apply clip_mono
  have hsplit : l.take k = l.take j ++ (l.take k).drop j := by
    conv_lhs => rw [← List.take_append_drop j (l.take k)]
    rw [List.take_take, min_eq_left h]
  rw [hsplit]
  unfold pairCos
  exact maxTriu_pairVals_le_append _ _ _

/-- Witness for `covering_radius_take_antitone` at j = 1 ≤ k = 2. -/
theorem covering_radius_take_antitone_witness :
    (1 ≤ 2) ∧
    crVal (([((1 : ℝ), (0 : ℝ), (0 : ℝ)), ((0 : ℝ), (1 : ℝ), (0 : ℝ))] : List P3).take 2) true ≤
      crVal (([((1 : ℝ), (0 : ℝ), (0 : ℝ)), ((0 : ℝ), (1 : ℝ), (0 : ℝ))] : List P3).take 1) true :=
  ⟨by norm_num, covering_radius_take_antitone _ true 1 2 (by norm_num)⟩

lemma crVal_lt_half_pi (x y z : P3)
    (h : maxTriu (pairCos [x, y, z] true) = 4 / 5) : crVal [x, y, z] true < π / 2 := by
  unfold crVal
  rw [h, show clip (4 / 5) = 4 / 5 by norm_num [clip], ← Real.arccos_zero]
  exact Real.strictAntiOn_arccos (by constructor <;> norm_num) (by constructor <;> norm_num)
    (by norm_num)

/-- Claim C1 (counterexample): for the input set {(1,0,0), (0,1,0),
(3/5,4/5,0)}, every ordering the incremental sorter could produce violates
the claimed invariant: the covering radius of the length-3 prefix
(arccos(4/5)) is strictly below that of the length-1 prefix (π/2), far beyond
solver tolerance — prefix covering radii can only shrink as k grows. -/
theorem incremental_ordering_not_nondecreasing_cex :
    crVal ([pE1, pE2, pMix].take 3) true < crVal ([pE1, pE2, pMix].take 1) true ∧
    crVal ([pE1, pMix, pE2].take 3) true < crVal ([pE1, pMix, pE2].take 1) true ∧
    crVal ([pE2, pE1, pMix].take 3) true < crVal ([pE2, pE1, pMix].take 1) true ∧
    crVal ([pE2, pMix, pE1].take 3) true < crVal ([pE2, pMix, pE1].take 1) true ∧
    crVal ([pMix, pE1, pE2].take 3) true < crVal ([pMix, pE1, pE2].take 1) true ∧
    crVal ([pMix, pE2, pE1].take 3) true < crVal ([pMix, pE2, pE1].take 1) true := by
  simp only [List.take_succ_cons, List.take_zero, List.take_nil]
  refine ⟨?_, ?_, ?_, ?_, ?_, ?_⟩ <;>
    rw [crVal_singleton] <;>
    apply crVal_lt_half_pi <;>
    norm_num [pairCos, pairVals, maxTriu, dot3, pE1, pE2, pMix, abs_of_nonneg]

/-- Claim C4: at new points [(1,0,0)] and existing points [(1,0,0)], the code's
`packing_density_loss` uses the prefix `cons[:1]` = the first existing point
(covering radius π/2) and yields 1, while the claimed value uses the prefix
"existing ++ first new point" (covering radius 0, the two points coincide) and
yields 0: the code takes the first k points of the concatenation instead of
the existing points plus the first k new ones, while still weighting by
`k + len(start)`. -/
theorem packing_density_loss_bug :
    packing_density_loss [pE1] [pE1] = 1 ∧ packingDensityLoss_spec [pE1] [pE1] = 0 := by
  constructor
  · show (1 - cos (crVal ([pE1, pE1].take 1) true)) / 2 * ((2 : ℕ) : ℝ) + 0 = 1
    rw [List.take_succ_cons, List.take_zero, crVal_singleton]
    norm_num
  · show (1 - cos (crVal ([pE1] ++ [pE1].take 1) true)) / 2 * ((2 : ℕ) : ℝ) + 0 = 0
    have hcr : crVal [pE1, pE1] true = 0 := by
      have : maxTriu (pairCos [pE1, pE1] true) = 1 := by
        norm_num [pairCos, pairVals, maxTriu, dot3, pE1]
      unfold crVal
      rw [this, show clip 1 = 1 by norm_num [clip], Real.arccos_one]
    norm_num [hcr]

lemma list_map_sum_eq_range (g : P3 → ℝ) (l : List P3) (d : P3) :
    (l.map g).sum = ∑ j ∈ Finset.range l.length, g (l.getD j d) := by
  induction l with
  | nil => simp
  | cons q rest ih =>
      rw [List.map_cons, List.sum_cons, List.length_cons, Finset.sum_range_succ']
      simp only [List.getD_cons_succ, List.getD_cons_zero]
      rw [ih]
      ring

/-- Claim C2 (amended): `electrostaticEnergy(points, order, antipodal)` equals
the sum over unordered index pairs i < j of
`1 / (Σ_d ((pⱼ - pᵢ)_d)^order + ε)` plus, when antipodal,
`1 / (Σ_d ((pⱼ + pᵢ)_d)^order + ε)`: the exponent is applied to the
coordinates of the difference before summing and ε is added inside the single
reciprocal, not `1 / (‖pᵢ - pⱼ‖² + ε)^order`. -/
theorem electrostatic_energy_eq_pair_sum (l : List P3) (o : ℕ) (a : Bool) :
    electrostatic_energy l o a =
      ∑ i ∈ Finset.range l.length, ∑ j ∈ Finset.range l.length,
        if i < j then pairEnergy o a (l.getD i (0, 0, 0)) (l.getD j (0, 0, 0)) else 0 := by
  induction l with
  | nil => simp [electrostatic_energy]
  | cons p rest ih =>
      have hstep : electrostatic_energy (p :: rest) o a
          = (rest.map (pairEnergy o a p)).sum + electrostatic_energy rest o a := rfl
      rw [hstep, ih, List.length_cons, Finset.sum_range_succ']
      have hF0 : (∑ j ∈ Finset.range (rest.length + 1),
          if 0 < j then pairEnergy o a ((p :: rest).getD 0 (0, 0, 0))
            ((p :: rest).getD j (0, 0, 0)) else 0)
          = (rest.map (pairEnergy o a p)).sum := by
        rw [Finset.sum_range_succ']
        simp only [List.getD_cons_succ, List.getD_cons_zero, Nat.succ_pos, if_true,
          Nat.lt_irrefl, if_false, add_zero]
        rw [list_map_sum_eq_range (pairEnergy o a p) rest (0, 0, 0)]
      have hFs : ∀ i, (∑ j ∈ Finset.range (rest.length + 1),
          if i + 1 < j then pairEnergy o a ((p :: rest).getD (i + 1) (0, 0, 0))
            ((p :: rest).getD j (0, 0, 0)) else 0)
          = ∑ j ∈ Finset.range rest.length,
              if i < j then pairEnergy o a (rest.getD i (0, 0, 0))
                (rest.getD j (0, 0, 0)) else 0 := by
        intro i
        rw [Finset.sum_range_succ']
        simp only [List.getD_cons_succ, List.getD_cons_zero, Nat.add_lt_add_iff_right,
          Nat.not_lt_zero, if_false, add_zero]
      rw [hF0, Finset.sum_congr rfl (fun i _ => hFs i)]
      ring

/-- Claim C2 (counterexample): at the two points (1,0,0), (0,1,0) with
order = 2 and antipodal = false, the code computes `1 / (2 + ε)` while the
claimed formula gives `1 / (2 + ε)²`. -/
theorem electrostatic_energy_claim_cex :
    electrostatic_energy [pE1, pE2] 2 false ≠ electrostaticEnergy_spec [pE1, pE2] 2 false := by
  have hL : electrostatic_energy [pE1, pE2] 2 false = 1 / (2 + epsE) := by
    norm_num [electrostatic_energy, pairEnergy, eTermDiff, pE1, pE2]
  have hR : electrostaticEnergy_spec [pE1, pE2] 2 false = 1 / (2 + epsE) ^ 2 := by
    unfold electrostaticEnergy_spec
    norm_num [Finset.sum_range_succ, pE1, pE2]
  rw [hL, hR]
  have heps : epsE = 1 / 1000000000 := rfl
  rw [heps]
  norm_num

lemma dot3_vneg_left (p q : P3) : dot3 (vneg p) q = -dot3 p q := by
  unfold dot3 vneg
  ring

lemma dot3_vneg_right (p q : P3) : dot3 p (vneg q) = -dot3 p q := by
  unfold dot3 vneg
  ring

lemma abs_dot3_flip (b c : Bool) (p q : P3) :
    |dot3 (if b then vneg p else p) (if c then vneg q else q)| = |dot3 p q| := by
  cases b <;> cases c <;>
    simp [dot3_vneg_left, dot3_vneg_right, abs_neg]

lemma map_abs_dot_applyFlip (f : ℝ → ℝ) (hf : ∀ x, f (-x) = f x) :
    ∀ (ps : List P3) (bs : List Bool) (p : P3) (b : Bool), bs.length = ps.length →
      (applyFlip bs ps).map (fun q => f (dot3 (if b then vneg p else p) q))
        = ps.map (fun q => f (dot3 p q)) := by
  intro ps
  induction ps with
  | nil =>
      intro bs p b hlen
      rw [List.length_nil, List.length_eq_zero] at hlen
      rw [hlen]
      rfl
  | cons q qs ih =>
      intro bs p b hlen
      rcases bs with _ | ⟨c, cs⟩
      · simp at hlen
      · simp only [List.length_cons, Nat.add_right_cancel_iff] at hlen
        show ((if c then vneg q else q) :: applyFlip cs qs).map _ = _
        rw [List.map_cons, List.map_cons, ih cs p b hlen]
        congr 1
        cases b <;> cases c <;>
          simp [dot3_vneg_left, dot3_vneg_right, hf]

lemma pairCos_applyFlip_true :
    ∀ (P : List P3) (ε : List Bool), ε.length = P.length →
      pairCos (applyFlip ε P) true = pairCos P true := by
  intro P
  induction P with
  | nil =>
      intro ε hlen
      rw [List.length_nil, List.length_eq_zero] at hlen
      rw [hlen]
      rfl
  | cons p ps ih =>
      intro ε hlen
      rcases ε with _ | ⟨b, bs⟩
      · simp at hlen
      · simp only [List.length_cons, Nat.add_right_cancel_iff] at hlen
        have ihv := ih bs hlen
        show pairCos ((if b then vneg p else p) :: applyFlip bs ps) true = pairCos (p :: ps) true
        unfold pairCos at ihv ⊢
        unfold pairVals
        rw [ihv]
        congr 1
        have hmap := map_abs_dot_applyFlip (fun c => |c|) (fun x => abs_neg x) ps bs p b hlen
        simpa using hmap

lemma clip_eq_self {x : ℝ} (h1 : -1 ≤ x) (h2 : x ≤ 1) : clip x = x := by
  unfold clip
  rw [max_eq_left h1, min_eq_left h2]

lemma clip_of_le {x : ℝ} (h : x ≤ -1) : clip x = -1 := by
  unfold clip
  rw [max_eq_right h, min_eq_left (by norm_num)]

lemma clip_of_ge {x : ℝ} (h : 1 ≤ x) : clip x = 1 := by
  unfold clip
  rw [max_eq_left (le_trans (by norm_num) h), min_eq_right h]

lemma clip_neg (x : ℝ) : clip (-x) = -clip x := by
  rcases le_total x (-1) with h | h
  · rw [clip_of_le h, clip_of_ge (by linarith)]
    norm_num
  · rcases le_total 1 x with h' | h'
    · rw [clip_of_ge h', clip_of_le (by linarith)]
    · rw [clip_eq_self h h', clip_eq_self (by linarith) (by linarith)]

lemma arcDis_zero : arcDis 0 = π / 2 := by
  unfold arcDis
  rw [clip_eq_self (by norm_num) (by norm_num), Real.arccos_zero]

lemma arcDis_anti {x y : ℝ} (h : x ≤ y) : arcDis y ≤ arcDis x :=
  arccos_anti (clip_mono h)

lemma arcDis_max (x y : ℝ) : arcDis (max x y) = min (arcDis x) (arcDis y) := by
  rcases le_total x y with h | h
  · rw [max_eq_right h, min_eq_right (arcDis_anti h)]
  · rw [max_eq_left h, min_eq_left (arcDis_anti h)]

lemma arcDis_foldl_max : ∀ (L : List ℝ) (a : ℝ),
    arcDis (L.foldl max a) = (L.map arcDis).foldl min (arcDis a) := by
  intro L
  induction L with
  | nil => intro a; rfl
  | cons x L ih =>
      intro a
      rw [List.foldl_cons, List.map_cons, List.foldl_cons, ih (max a x), arcDis_max]

lemma crVal_false_eq (X : List P3) :
    crVal X false = ((pairCos X false).map arcDis).foldl min (π / 2) := by
  unfold crVal maxTriu
  rw [show arccos (clip ((pairCos X false).foldl max 0)) = arcDis ((pairCos X false).foldl max 0)
      from rfl, arcDis_foldl_max, arcDis_zero]

lemma foldl_min_le_of_le : ∀ (L : List ℝ) (a b : ℝ), a ≤ b → L.foldl min a ≤ L.foldl min b := by
  intro L
  induction L with
  | nil => exact fun _ _ h => h
  | cons x L ih =>
      intro a b h
      rw [List.foldl_cons, List.foldl_cons]
      exact ih _ _ (min_le_min h (le_refl x))

lemma foldl_min_init : ∀ (L : List ℝ) (a b : ℝ),
    L.foldl min (min a b) = min a (L.foldl min b) := by
  intro L
  induction L with
  | nil => intro a b; rfl
  | cons x L ih =>
      intro a b
      rw [List.foldl_cons, List.foldl_cons, min_assoc, ih a (min b x)]

lemma foldl_min_half_pi (L : List ℝ) :
    L.foldl min (π / 2) = min (π / 2) (L.foldl min π) := by
  have hhalf : (π / 2 : ℝ) = min (π / 2) π := (min_eq_left (by linarith [Real.pi_pos])).symm
  calc L.foldl min (π / 2) = L.foldl min (min (π / 2) π) := by rw [← hhalf]
    _ = min (π / 2) (L.foldl min π) := foldl_min_init L (π / 2) π

lemma applyFlip_replicate_false : ∀ (P : List P3),
    applyFlip (List.replicate P.length false) P = P := by
  intro P
  induction P with
  | nil => rfl
  | cons p ps ih =>
      show applyFlip (false :: List.replicate ps.length false) (p :: ps) = p :: ps
      show (if false then vneg p else p) :: applyFlip (List.replicate ps.length false) ps = p :: ps
      rw [if_neg (by simp), ih]

lemma zip_map_flipAngles :
    ∀ (ps : List P3) (bs : List Bool) (p : P3) (b : Bool), bs.length = ps.length →
      (ps.zip bs).map
          (fun qc => flipPairTerm (if b = qc.2 then 0 else 1) (arcDis (dot3 p qc.1)))
        = (applyFlip bs ps).map (fun q => arcDis (dot3 (if b then vneg p else p) q)) := by
  intro ps
  induction ps with
  | nil =>
      intro bs p b hlen
      rw [List.length_nil, List.length_eq_zero] at hlen
      rw [hlen]
      rfl
  | cons q qs ih =>
      intro bs p b hlen
      rcases bs with _ | ⟨c, cs⟩
      · simp at hlen
      · simp only [List.length_cons, Nat.add_right_cancel_iff] at hlen
        show (((q, c) :: qs.zip cs).map _ : List ℝ) = ((if c then vneg q else q) :: applyFlip cs qs).map _
        rw [List.map_cons, List.map_cons, ih cs p b hlen]
        congr 1
        show flipPairTerm (if b = c then 0 else 1) (arcDis (dot3 p q))
          = arcDis (dot3 (if b then vneg p else p) (if c then vneg q else q))
        cases b <;> cases c
        · rw [if_pos rfl, if_neg (by simp), if_neg (by simp)]
          unfold flipPairTerm
          ring
        · rw [if_neg (by simp), if_neg (by simp), if_pos rfl, dot3_vneg_right]
          unfold flipPairTerm arcDis
          rw [clip_neg, Real.arccos_neg]
          ring
        · rw [if_neg (by simp), if_pos rfl, if_neg (by simp), dot3_vneg_left]
          unfold flipPairTerm arcDis
          rw [clip_neg, Real.arccos_neg]
          ring
        · rw [if_pos rfl, if_pos rfl, if_pos rfl, dot3_vneg_left, dot3_vneg_right]
          unfold flipPairTerm
          rw [neg_neg]
          ring

lemma pairFlipAngles_eq_map :
    ∀ (P : List P3) (ε : List Bool), ε.length = P.length →
      pairFlipAngles (P.zip ε) = (pairCos (applyFlip ε P) false).map arcDis := by
  intro P
  induction P with
  | nil =>
      intro ε hlen
      rw [List.length_nil, List.length_eq_zero] at hlen
      rw [hlen]
      rfl
  | cons p ps ih =>
      intro ε hlen
      rcases ε with _ | ⟨b, bs⟩
      · simp at hlen
      · simp only [List.length_cons, Nat.add_right_cancel_iff] at hlen
        show pairFlipAngles ((p, b) :: ps.zip bs) = _
        show (ps.zip bs).map _ ++ pairFlipAngles (ps.zip bs)
          = (pairCos ((if b then vneg p else p) :: applyFlip bs ps) false).map arcDis
        have ihv := ih bs hlen
        unfold pairCos at ihv
        unfold pairCos pairVals
        rw [List.map_append, ihv, List.map_map, zip_map_flipAngles ps bs p b hlen]
        rfl

/-- Claim C7 (counterexample): flipping the second of the two unit points
(1,0,0), (-3/5,4/5,0) is a valid polarity-flip output shape (each point kept
or negated), yet the directional covering radius drops from π/2 to
arccos(3/5): the monotonicity only holds for flips attaining the `dirflip`
model's optimum, not for every flip. -/
theorem dirflip_directional_cex :
    crVal (applyFlip [false, true] [pE1, pMixNeg]) false < crVal [pE1, pMixNeg] false := by
  have hL : crVal (applyFlip [false, true] [pE1, pMixNeg]) false = arccos (3 / 5) := by
    show crVal [pE1, vneg pMixNeg] false = arccos (3 / 5)
    have hpc : pairCos [pE1, vneg pMixNeg] false = [3 / 5] := by
      norm_num [pairCos, pairVals, dot3, vneg, pE1, pMixNeg]
    unfold crVal maxTriu
    rw [hpc, show List.foldl max 0 [(3 : ℝ) / 5] = 3 / 5 by norm_num [max_def],
      clip_eq_self (by norm_num) (by norm_num)]
  have hR : crVal [pE1, pMixNeg] false = π / 2 := by
    have hpc : pairCos [pE1, pMixNeg] false = [-3 / 5] := by
      norm_num [pairCos, pairVals, dot3, pE1, pMixNeg]
    unfold crVal maxTriu
    rw [hpc, show List.foldl max 0 [(-3 : ℝ) / 5] = 0 by norm_num [max_def],
      clip_eq_self (by norm_num) (by norm_num), Real.arccos_zero]
  rw [hL, hR, ← Real.arccos_zero]
  exact Real.strictAntiOn_arccos (by constructor <;> norm_num) (by constructor <;> norm_num)
    (by norm_num)

/-- Claim C7 (amended): every polarity flip leaves the antipodal-invariant
covering radius unchanged; and whenever the flip attains the optimum of the
`dirflip` model (it maximizes the minimum linearized pair angle over all
flips), the directional covering radius of the output is ≥ that of the
input. -/
theorem dirflip_covering_radius (P : List P3) (ε : List Bool) (hlen : ε.length = P.length) :
    covering_radius (applyFlip ε P) true = covering_radius P true ∧
    ((∀ ε', ε'.length = P.length → dirflipObjective P ε' ≤ dirflipObjective P ε) →
      crVal P false ≤ crVal (applyFlip ε P) false) := by
  constructor
  · cases P with
    | nil =>
        rw [List.length_nil, List.length_eq_zero] at hlen
        rw [hlen]
        rfl
    | cons p ps =>
        rcases ε with _ | ⟨b, bs⟩
        · simp at hlen
        · show some (crVal ((if b then vneg p else p) :: applyFlip bs ps) true)
            = some (crVal (p :: ps) true)
          have := pairCos_applyFlip_true (p :: ps) (b :: bs) hlen
          unfold crVal
          rw [show pairCos ((if b then vneg p else p) :: applyFlip bs ps) true
              = pairCos (applyFlip (b :: bs) (p :: ps)) true from rfl, this]
  · intro hopt
    have hobj : ∀ (δ : List Bool), δ.length = P.length →
        dirflipObjective P δ = ((pairCos (applyFlip δ P) false).map arcDis).foldl min π := by
      intro δ hδ
      unfold dirflipObjective
      rw [pairFlipAngles_eq_map P δ hδ]
    have h1 := hopt (List.replicate P.length false) (by simp)
    rw [hobj _ (by simp), hobj ε hlen, applyFlip_replicate_false] at h1
    rw [crVal_false_eq, crVal_false_eq, foldl_min_half_pi, foldl_min_half_pi]
    exact min_le_min (le_refl _) h1

/-- Witness for `dirflip_covering_radius` at the two orthogonal points
(1,0,0), (0,1,0) with the identity flip, which attains the model optimum. -/
theorem dirflip_covering_radius_witness :
    (([false, false] : List Bool).length = ([pE1, pE2] : List P3).length) ∧
    (∀ ε', ε'.length = ([pE1, pE2] : List P3).length →
      dirflipObjective [pE1, pE2] ε' ≤ dirflipObjective [pE1, pE2] [false, false]) ∧
    covering_radius (applyFlip [false, false] [pE1, pE2]) true = covering_radius [pE1, pE2] true ∧
    crVal [pE1, pE2] false ≤ crVal (applyFlip [false, false] [pE1, pE2]) false := by
  have hval : ∀ (a b : Bool), dirflipObjective [pE1, pE2] [a, b] = π / 2 := by
    intro a b
    have hdot : dot3 pE1 pE2 = 0 := by norm_num [dot3, pE1, pE2]
    show (pairFlipAngles [(pE1, a), (pE2, b)]).foldl min π = π / 2
    show ([(pE2, b)].map (fun qc =>
        flipPairTerm (if a = qc.2 then 0 else 1) (arcDis (dot3 pE1 qc.1)))
        ++ pairFlipAngles [(pE2, b)]).foldl min π = π / 2
    show ([flipPairTerm (if a = b then 0 else 1) (arcDis (dot3 pE1 pE2))]
        ++ ([] ++ [])).foldl min π = π / 2
    rw [hdot, arcDis_zero]
    have hterm : flipPairTerm (if a = b then 0 else 1) (π / 2) = π / 2 := by
      by_cases hab : a = b
      · rw [if_pos hab]
        unfold flipPairTerm
        ring
      · rw [if_neg hab]
        unfold flipPairTerm
        ring
    rw [hterm]
    show min π (π / 2) = π / 2
    exact min_eq_right (by linarith [Real.pi_pos])
  have hopt : ∀ ε', ε'.length = ([pE1, pE2] : List P3).length →
      dirflipObjective [pE1, pE2] ε' ≤ dirflipObjective [pE1, pE2] [false, false] := by
    intro ε' h
    rcases ε' with _ | ⟨a, t⟩
    · simp at h
    rcases t with _ | ⟨b, t'⟩
    · simp at h
    rcases t' with _ | ⟨c, t''⟩
    · rw [hval a b, hval false false]
    · simp at h
  have h := dirflip_covering_radius [pE1, pE2] [false, false] rfl
  exact ⟨rfl, hopt, h.1, h.2 hopt⟩

end Qspace
